import Mathlib

/-!
Verification of the readr prototype parsing core against its specification.
Definitions shallowly embed src/src/HparseFile.cpp and src/R/read_lines.R.
Components whose implementations live in headers absent from the sources
(HStreamFile.h, HStreamString.h, HTokenizerDelimited.h, HCollector.h and the
locale machinery) are modelled from the specification, as marked in their
doc comments.
-/

namespace Readr

/-- Token classification from the spec data model: one of PLAIN, QUOTED,
MISSING, MALFORMED. -/
inductive TokenType
  | PLAIN
  | QUOTED
  | MISSING
  | MALFORMED
deriving DecidableEq

/-- A raw field token. The implementation keeps a view into the record buffer
and materializes it with asString; the model stores the materialized content
directly. -/
structure Token where
  content : List Char
  type : TokenType
deriving DecidableEq

/-- A non-fatal diagnostic record. -/
structure Problem where
  message : String
deriving DecidableEq

/-- The Problem appended when end-of-input is reached inside a quoted field. -/
def unterminatedProblem : Problem :=
  ⟨"unterminated quoted field"⟩

/-- Tokenizer states, from the spec state machine in section 4.2. The
accumulator holds the bytes of the current field in reverse order. -/
inductive TkState
  | FIELD_START
  | IN_FIELD (acc : List Char)
  | IN_QUOTED_FIELD (acc : List Char)
  | QUOTE_SEEN_IN_QUOTED_FIELD (acc : List Char)

/-- Modelled from the spec: the quoting/escaping state machine of
TokenizerDelimited (HTokenizerDelimited.h is not among the sources), spec
section 4.2. Runs the machine from state `s` over the remaining input,
returning the emitted token, the input left after it, and the Problem
recorded when end-of-input is reached inside a quoted field. CRLF and lone
LF both act as record terminators; a lone CR is ordinary field content. -/
def runTk (delim quote : Char) (s : TkState) (cs : List Char) :
    Token × List Char × Option Problem :=
  match s, cs with
  | .FIELD_START, [] => (⟨[], .MISSING⟩, [], none)
  | .FIELD_START, c :: rest =>
    if c = quote then runTk delim quote (.IN_QUOTED_FIELD []) rest
    else if c = delim then (⟨[], .MISSING⟩, rest, none)
    else if c = '\n' then (⟨[], .MISSING⟩, rest, none)
    else if c = '\r' then
      match rest with
      | '\n' :: rest2 => (⟨[], .MISSING⟩, rest2, none)
      | _ => runTk delim quote (.IN_FIELD [c]) rest
    else runTk delim quote (.IN_FIELD [c]) rest
  | .IN_FIELD acc, [] => (⟨acc.reverse, .PLAIN⟩, [], none)
  | .IN_FIELD acc, c :: rest =>
    if c = delim then (⟨acc.reverse, .PLAIN⟩, rest, none)
    else if c = '\n' then (⟨acc.reverse, .PLAIN⟩, rest, none)
    else if c = '\r' then
      match rest with
      | '\n' :: rest2 => (⟨acc.reverse, .PLAIN⟩, rest2, none)
      | _ => runTk delim quote (.IN_FIELD (c :: acc)) rest
    else runTk delim quote (.IN_FIELD (c :: acc)) rest
  | .IN_QUOTED_FIELD acc, [] =>
    (⟨acc.reverse, .MALFORMED⟩, [], some unterminatedProblem)
  | .IN_QUOTED_FIELD acc, c :: rest =>
    if c = quote then runTk delim quote (.QUOTE_SEEN_IN_QUOTED_FIELD acc) rest
    else runTk delim quote (.IN_QUOTED_FIELD (c :: acc)) rest
  | .QUOTE_SEEN_IN_QUOTED_FIELD acc, [] => (⟨acc.reverse, .QUOTED⟩, [], none)
  | .QUOTE_SEEN_IN_QUOTED_FIELD acc, c :: rest =>
    if c = quote then runTk delim quote (.IN_QUOTED_FIELD (c :: acc)) rest
    else if c = delim then (⟨acc.reverse, .QUOTED⟩, rest, none)
    else if c = '\n' then (⟨acc.reverse, .QUOTED⟩, rest, none)
    else if c = '\r' then
      match rest with
      | '\n' :: rest2 => (⟨acc.reverse, .QUOTED⟩, rest2, none)
      | _ => (⟨acc.reverse, .QUOTED⟩, c :: rest, none)
    else (⟨acc.reverse, .QUOTED⟩, c :: rest, none)

/-- nextToken of TokenizerDelimited: run the machine from FIELD_START. -/
def nextToken (delim quote : Char) (cs : List Char) :
    Token × List Char × Option Problem :=
  runTk delim quote .FIELD_START cs

/-- The machine never produces more remaining input than it was given. -/
theorem runTk_rest_le (delim quote : Char) (cs : List Char) :
    ∀ s, ((runTk delim quote s cs).2.1).length ≤ cs.length := by
  induction cs with
  | nil =>
    intro s
    cases s <;> simp [runTk]
  | cons c rest ih =>
    intro s
    have hstep : ∀ s2, ((runTk delim quote s2 rest).2.1).length ≤ (c :: rest).length := by
      intro s2
      exact le_trans (ih s2) (Nat.le_succ _)
    cases s <;> (simp only [runTk]; repeat' split) <;>
      first
        | exact hstep _
        | omega
        | (simp; try omega)

/-- From FIELD_START on a nonempty input, nextToken always consumes at least
the first byte. -/
theorem nextToken_consumes (delim quote c : Char) (rest : List Char) :
    ((nextToken delim quote (c :: rest)).2.1).length ≤ rest.length := by
  show ((runTk delim quote .FIELD_START (c :: rest)).2.1).length ≤ rest.length
  simp only [runTk]
  repeat' split
  all_goals
    first
      | exact runTk_rest_le delim quote rest _
      | omega
      | (simp; try omega)

/-- The loop of tokenizeString (src/src/HparseFile.cpp): call nextToken while
peek is not EOF, collecting tokens and Problems. The fuel argument only makes
the recursion structural; tokenizeLoop_fuel shows any fuel of at least the
input length gives the same value, so the model agrees with the unbounded
C++ loop. -/
def tokenizeLoop (delim quote : Char) : Nat → List Char → List Token × List Problem
  | _, [] => ([], [])
  | 0, _ :: _ => ([], [])
  | fuel + 1, c :: rest =>
    match nextToken delim quote (c :: rest) with
    | (t, rest2, prob) =>
      match tokenizeLoop delim quote fuel rest2 with
      | (ts, ps) => (t :: ts, prob.toList ++ ps)

/-- Tokenizing a whole string: run the loop with sufficient fuel. -/
def tokenize (delim quote : Char) (cs : List Char) : List Token × List Problem :=
  tokenizeLoop delim quote cs.length cs

/-- Fuel irrelevance: any fuel of at least the input length yields the value
of tokenize, so tokenize models the unbounded loop faithfully. -/
theorem tokenizeLoop_fuel (delim quote : Char) :
    ∀ fuel cs, cs.length ≤ fuel →
      tokenizeLoop delim quote fuel cs = tokenize delim quote cs := by
  intro fuel
  induction fuel using Nat.strong_induction_on with
  | _ fuel ih =>
    intro cs hle
    match fuel, cs with
    | _, [] =>
      cases fuel <;> simp [tokenizeLoop, tokenize]
    | fuel + 1, c :: rest =>
      have hcons := nextToken_consumes delim quote c rest
      have hlen : rest.length ≤ fuel := by simpa using hle
      simp only [tokenize, tokenizeLoop, List.length_cons]
      have h1 : tokenizeLoop delim quote fuel (nextToken delim quote (c :: rest)).2.1 =
          tokenize delim quote (nextToken delim quote (c :: rest)).2.1 :=
        ih fuel (Nat.lt_succ_self fuel) _ (le_trans hcons hlen)
      have h2 : tokenizeLoop delim quote rest.length (nextToken delim quote (c :: rest)).2.1 =
          tokenize delim quote (nextToken delim quote (c :: rest)).2.1 := by
        rcases Nat.eq_or_lt_of_le (Nat.zero_le rest.length) with h0 | hpos
        · exact ih rest.length (by omega) _ (le_trans hcons le_rfl)
        · exact ih rest.length (by omega) _ hcons
      rcases hnt : nextToken delim quote (c :: rest) with ⟨t, rest2, prob⟩
      rw [hnt] at h1 h2
      rw [h1, ← h2]

/-- tokenizeString (src/src/HparseFile.cpp): delimiter comma, quote byte the
double quote; returns each token materialized with asString. -/
def tokenizeString (cs : List Char) : List (List Char) :=
  ((tokenize ',' '"' cs).1).map Token.content

/-- Inside a quoted field the machine accumulates bytes verbatim up to the
next quote byte, which hands control to QUOTE_SEEN_IN_QUOTED_FIELD. -/
theorem runTk_inQuoted_to_quote (delim quote : Char) (cs : List Char)
    (hq : quote ∉ cs) (acc tail : List Char) :
    runTk delim quote (.IN_QUOTED_FIELD acc) (cs ++ quote :: tail) =
      runTk delim quote (.QUOTE_SEEN_IN_QUOTED_FIELD (cs.reverse ++ acc)) tail := by
  induction cs generalizing acc with
  | nil => simp [runTk]
  | cons c cs ih =>
    have hne : ¬ (c = quote) := fun h => hq (h ▸ List.mem_cons_self c cs)
    have hq2 : quote ∉ cs := fun h => hq (List.mem_cons_of_mem c h)
    simp only [List.cons_append, runTk, if_neg hne, List.append_eq]
    rw [ih hq2 (c :: acc)]
    simp

/-- End-of-input inside a quoted field: the partial content is returned as a
MALFORMED token together with the unterminated-quoted-field Problem. -/
theorem runTk_inQuoted_eof (delim quote : Char) (cs : List Char)
    (hq : quote ∉ cs) (acc : List Char) :
    runTk delim quote (.IN_QUOTED_FIELD acc) cs =
      (⟨acc.reverse ++ cs, .MALFORMED⟩, [], some unterminatedProblem) := by
  induction cs generalizing acc with
  | nil => simp [runTk]
  | cons c cs ih =>
    have hne : ¬ (c = quote) := fun h => hq (h ▸ List.mem_cons_self c cs)
    have hq2 : quote ∉ cs := fun h => hq (List.mem_cons_of_mem c h)
    simp only [runTk, if_neg hne]
    rw [ih hq2 (c :: acc)]
    simp

/-- C1: a field value containing the delimiter, when enclosed in quote bytes,
is tokenized as exactly one QUOTED token whose content is the field content
with the enclosing quotes removed; the documented example input yields
exactly the two tokens a,b then c. -/
theorem quoted_field_one_token (cs rest : List Char) (hq : '"' ∉ cs) :
    nextToken ',' '"' ('"' :: cs ++ '"' :: ',' :: rest) =
      (⟨cs, .QUOTED⟩, rest, none) ∧
    tokenizeString ("\"a,b\",c".toList) = ["a,b".toList, "c".toList] := by
  refine ⟨?_, by decide⟩
  have h1 : nextToken ',' '"' ('"' :: cs ++ '"' :: ',' :: rest) =
      runTk ',' '"' (.IN_QUOTED_FIELD []) (cs ++ '"' :: ',' :: rest) := by
    simp [nextToken, runTk]
  rw [h1, runTk_inQuoted_to_quote ',' '"' cs hq [] (',' :: rest)]
  simp [runTk]

theorem quoted_field_one_token_witness :
    nextToken ',' '"' ('"' :: "a,b".toList ++ '"' :: ',' :: "c".toList) =
      (⟨"a,b".toList, .QUOTED⟩, "c".toList, none) :=
  (quoted_field_one_token ("a,b".toList) ("c".toList) (by decide)).1

/-- C2: two consecutive quote bytes inside a quoted field decode to exactly
one literal quote character in the emitted token content, the machine
returning to IN_QUOTED_FIELD afterwards, so the whole field is still one
QUOTED token; the documented example decodes this way. -/
theorem doubled_quote_one_literal (a b rest : List Char)
    (ha : '"' ∉ a) (hb : '"' ∉ b) :
    nextToken ',' '"' ('"' :: (a ++ '"' :: '"' :: b) ++ '"' :: ',' :: rest) =
      (⟨a ++ '"' :: b, .QUOTED⟩, rest, none) ∧
    tokenizeString ("\"a\"\"b\"".toList) = ["a\"b".toList] := by
  refine ⟨?_, by decide⟩
  have h1 : nextToken ',' '"' ('"' :: (a ++ '"' :: '"' :: b) ++ '"' :: ',' :: rest) =
      runTk ',' '"' (.IN_QUOTED_FIELD [])
        (a ++ '"' :: ('"' :: (b ++ '"' :: ',' :: rest))) := by
    simp [nextToken, runTk]
  rw [h1, runTk_inQuoted_to_quote ',' '"' a ha [] ('"' :: (b ++ '"' :: ',' :: rest))]
  have h2 : runTk ',' '"' (.QUOTE_SEEN_IN_QUOTED_FIELD (a.reverse ++ []))
      ('"' :: (b ++ '"' :: ',' :: rest)) =
      runTk ',' '"' (.IN_QUOTED_FIELD ('"' :: (a.reverse ++ [])))
        (b ++ '"' :: ',' :: rest) := by
    simp [runTk]
  rw [h2, runTk_inQuoted_to_quote ',' '"' b hb _ (',' :: rest)]
  simp [runTk]

theorem doubled_quote_one_literal_witness :
    nextToken ',' '"' ('"' :: ("a".toList ++ '"' :: '"' :: "b".toList) ++ '"' :: ',' :: []) =
      (⟨"a".toList ++ '"' :: "b".toList, .QUOTED⟩, [], none) :=
  (doubled_quote_one_literal ("a".toList) ("b".toList) [] (by decide) (by decide)).1

/-- C3: when end-of-input is reached inside a quoted field, the partially
accumulated content is emitted as one MALFORMED token, exactly one
unterminated-quoted-field Problem is appended, and the parse runs to
completion — both for a source that is a single unterminated field and for
one where an earlier field already parsed cleanly, the resulting value being
the partial captured text. -/
theorem unterminated_quoted_field (cs : List Char) (hq : '"' ∉ cs) :
    tokenize ',' '"' ('"' :: cs) =
      ([⟨cs, .MALFORMED⟩], [unterminatedProblem]) ∧
    tokenize ',' '"' ('a' :: ',' :: '"' :: cs) =
      ([⟨['a'], .PLAIN⟩, ⟨cs, .MALFORMED⟩], [unterminatedProblem]) := by
  have hnt : nextToken ',' '"' ('"' :: cs) =
      (⟨cs, .MALFORMED⟩, [], some unterminatedProblem) := by
    show runTk ',' '"' .FIELD_START ('"' :: cs) = _
    simp only [runTk, if_pos rfl]
    simpa using runTk_inQuoted_eof ',' '"' cs hq []
  have hone : tokenize ',' '"' ('"' :: cs) =
      ([⟨cs, .MALFORMED⟩], [unterminatedProblem]) := by
    show tokenizeLoop ',' '"' ('"' :: cs).length ('"' :: cs) = _
    simp only [List.length_cons, tokenizeLoop, hnt]
    simp [tokenizeLoop, Option.toList]
  refine ⟨hone, ?_⟩
  have hnt2 : nextToken ',' '"' ('a' :: ',' :: '"' :: cs) =
      (⟨['a'], .PLAIN⟩, '"' :: cs, none) := by
    show runTk ',' '"' .FIELD_START ('a' :: ',' :: '"' :: cs) = _
    simp [runTk]
  show tokenizeLoop ',' '"' ('a' :: ',' :: '"' :: cs).length ('a' :: ',' :: '"' :: cs) = _
  simp only [List.length_cons, tokenizeLoop, hnt2]
  simp [hnt, tokenizeLoop, Option.toList]

theorem unterminated_quoted_field_witness :
    tokenize ',' '"' ('"' :: "ab".toList) =
      ([⟨"ab".toList, .MALFORMED⟩], [unterminatedProblem]) :=
  (unterminated_quoted_field ("ab".toList) (by decide)).1

/-- Modelled from the spec: the Stream byte-source abstraction (HStreamFile.h
and HStreamString.h are not among the sources; StreamFile and StreamString
share this get/peek contract, spec section 4.1). The source is a sequence of
bytes (values 0 to 255); get and peek return an Int so that the end-of-input
sentinel EOF = -1 is distinct from every byte value. -/
structure Stream where
  data : List Nat
  pos : Nat
deriving DecidableEq

/-- The end-of-input sentinel EOF compared against by the callers in
src/src/HparseFile.cpp. -/
def streamEOF : Int := -1

/-- get returns the next byte and advances the cursor, or the sentinel. -/
def Stream.get (s : Stream) : Int × Stream :=
  match s.data[s.pos]? with
  | some b => ((b : Int), ⟨s.data, s.pos + 1⟩)
  | none => (streamEOF, s)

/-- peek returns the next byte without advancing, or the sentinel. -/
def Stream.peek (s : Stream) : Int :=
  match s.data[s.pos]? with
  | some b => (b : Int)
  | none => streamEOF

/-- C4: get returns the next byte of the source and advances the cursor by
one, peek returns that same byte without advancing, an exhausted source
yields the sentinel without moving, and the sentinel differs from every byte
value the source can hold. -/
theorem stream_get_peek_contract (s : Stream) (hb : ∀ b ∈ s.data, b < 256) :
    (s.get).1 = s.peek ∧
    (s.pos < s.data.length →
        (s.get).2.data = s.data ∧ (s.get).2.pos = s.pos + 1 ∧
        s.data[s.pos]? = some ((s.get).1).toNat ∧ (s.get).1 ≠ streamEOF) ∧
    (s.data.length ≤ s.pos → (s.get).1 = streamEOF ∧ (s.get).2 = s) ∧
    (∀ b ∈ s.data, (b : Int) ≠ streamEOF) := by
  cases h : s.data[s.pos]? with
  | none =>
    have hlen : s.data.length ≤ s.pos := List.getElem?_eq_none_iff.mp h
    refine ⟨by simp [Stream.get, Stream.peek, h], fun hlt => absurd hlt (by omega), ?_, ?_⟩
    · intro _
      simp [Stream.get, h]
    · intro b _
      simp only [streamEOF]
      omega
  | some b =>
    refine ⟨by simp [Stream.get, Stream.peek, h], ?_, ?_, ?_⟩
    · intro _
      refine ⟨by simp [Stream.get, h], by simp [Stream.get, h], ?_, ?_⟩
      · simp [Stream.get, h]
      · simp only [Stream.get, h, streamEOF]
        omega
    · intro hlen
      have : s.pos < s.data.length := (List.getElem?_eq_some_iff.mp h).1
      omega
    · intro b2 _
      simp only [streamEOF]
      omega

theorem stream_get_peek_contract_witness :
    ((⟨[65, 66], 0⟩ : Stream).get).1 = (⟨[65, 66], 0⟩ : Stream).peek ∧
    ((⟨[65, 66], 0⟩ : Stream).get).2.pos = 1 :=
  ⟨(stream_get_peek_contract ⟨[65, 66], 0⟩ (by decide)).1,
   ((stream_get_peek_contract ⟨[65, 66], 0⟩ (by decide)).2.1 (by decide)).2.1⟩

/-- Modelled from the spec: DoubleCollector (HCollector.h is not among the
sources; spec section 3 describes the Collector as owning one typed output
column). The numeric conversion of a token is a floating-point operation
outside the model, so a written cell is modelled as the token written into
it, and a never-written cell as none — in the implementation such a cell
keeps its default-initialized contents. -/
structure DoubleCollector where
  column : List (Option Token)
deriving DecidableEq

/-- resize n: truncate or pad the column with default-initialized cells so
that it holds exactly n cells. -/
def DoubleCollector.resize (c : DoubleCollector) (n : Nat) : DoubleCollector :=
  ⟨(c.column ++ List.replicate (n - c.column.length) none).take n⟩

/-- setValue i t: store the value converted from token t into cell i. -/
def DoubleCollector.setValue (c : DoubleCollector) (i : Nat) (t : Token) :
    DoubleCollector :=
  ⟨c.column.set i (some t)⟩

/-- vector(): hand the column to the caller. -/
def DoubleCollector.vector (c : DoubleCollector) : List (Option Token) :=
  c.column

/-- The loop of parseNumbers (src/src/HparseFile.cpp): while peek is not EOF
and i < 100, the next token is converted into cell i. The fuel argument
makes the bound structural: parseNumbers starts it at fuel = 100, i = 0, and
the invariant fuel + i = 100 makes fuel > 0 coincide with i < 100. Returns
the collector and the final i, the number of rows processed. -/
def parseNumbersLoop (delim quote : Char) :
    Nat → Nat → DoubleCollector → List Char → DoubleCollector × Nat
  | 0, i, out, _ => (out, i)
  | _ + 1, i, out, [] => (out, i)
  | fuel + 1, i, out, c :: rest =>
    match nextToken delim quote (c :: rest) with
    | (t, rest2, _) =>
      parseNumbersLoop delim quote fuel (i + 1) (out.setValue i t) rest2

/-- parseNumbers (src/src/HparseFile.cpp): comma tokenizer over a string
source, a DoubleCollector resized to 100, loop from i = 0; returns the
collector's vector together with the number of rows processed. -/
def parseNumbers (cs : List Char) : List (Option Token) × Nat :=
  match parseNumbersLoop ',' '"' 100 0 ((DoubleCollector.mk []).resize 100) cs with
  | (out, i) => (out.vector, i)

/-- The parseNumbers loop never changes the column's length. -/
theorem parseNumbersLoop_length (delim quote : Char) (fuel : Nat) :
    ∀ i out cs,
      ((parseNumbersLoop delim quote fuel i out cs).1).column.length =
        out.column.length := by
  induction fuel with
  | zero => intro i out cs; rfl
  | succ fuel ih =>
    intro i out cs
    cases cs with
    | nil => rfl
    | cons c rest =>
      simp only [parseNumbersLoop]
      rcases hnt : nextToken delim quote (c :: rest) with ⟨t, rest2, prob⟩
      simpa [DoubleCollector.setValue] using ih (i + 1) (out.setValue i t) rest2

/-- The parseNumbers loop advances i by one per row, never beyond the fuel. -/
theorem parseNumbersLoop_rows (delim quote : Char) (fuel : Nat) :
    ∀ i out cs,
      i ≤ (parseNumbersLoop delim quote fuel i out cs).2 ∧
      (parseNumbersLoop delim quote fuel i out cs).2 ≤ i + fuel := by
  induction fuel with
  | zero => intro i out cs; exact ⟨le_rfl, by simp [parseNumbersLoop]⟩
  | succ fuel ih =>
    intro i out cs
    cases cs with
    | nil => exact ⟨le_rfl, by simp [parseNumbersLoop]⟩
    | cons c rest =>
      simp only [parseNumbersLoop]
      rcases hnt : nextToken delim quote (c :: rest) with ⟨t, rest2, prob⟩
      dsimp only
      have h := ih (i + 1) (out.setValue i t) rest2
      exact ⟨by omega, by omega⟩

/-- Cells at or beyond the final row index are never written by the loop. -/
theorem parseNumbersLoop_untouched (delim quote : Char) (fuel : Nat) :
    ∀ i out cs j, (parseNumbersLoop delim quote fuel i out cs).2 ≤ j →
      ((parseNumbersLoop delim quote fuel i out cs).1).column[j]? =
        out.column[j]? := by
  induction fuel with
  | zero => intro i out cs j _; rfl
  | succ fuel ih =>
    intro i out cs j hj
    cases cs with
    | nil => rfl
    | cons c rest =>
      simp only [parseNumbersLoop] at hj ⊢
      rcases hnt : nextToken delim quote (c :: rest) with ⟨t, rest2, prob⟩
      rw [hnt] at hj
      dsimp only at hj ⊢
      have hge : i + 1 ≤ (parseNumbersLoop delim quote fuel (i + 1)
          (out.setValue i t) rest2).2 :=
        (parseNumbersLoop_rows delim quote fuel (i + 1) (out.setValue i t) rest2).1
      rw [ih (i + 1) (out.setValue i t) rest2 j hj]
      simp only [DoubleCollector.setValue]
      exact List.getElem?_set_ne (by omega)

/-- The collector handed to the parseNumbers loop: 100 default cells. -/
theorem parseNumbers_init_column :
    ((DoubleCollector.mk []).resize 100).column =
      List.replicate 100 (none : Option Token) := by
  simp [DoubleCollector.resize]

/-- C10: parseNumbers converts at most the first 100 tokens of its input and
always returns a vector of exactly 100 cells; every cell at or beyond the
number of rows processed keeps the pre-sized collector's initial contents. -/
theorem parseNumbers_first_hundred (cs : List Char) :
    (parseNumbers cs).2 ≤ 100 ∧
    ((parseNumbers cs).1).length = 100 ∧
    ∀ j, (parseNumbers cs).2 ≤ j → j < 100 →
      (parseNumbers cs).1[j]? = some none := by
  have hrows := parseNumbersLoop_rows ',' '"' 100 0
    ((DoubleCollector.mk []).resize 100) cs
  have hlen := parseNumbersLoop_length ',' '"' 100 0
    ((DoubleCollector.mk []).resize 100) cs
  have huntouched := parseNumbersLoop_untouched ',' '"' 100 0
    ((DoubleCollector.mk []).resize 100) cs
  simp only [parseNumbers]
  rcases hrun : parseNumbersLoop ',' '"' 100 0
    ((DoubleCollector.mk []).resize 100) cs with ⟨out, i⟩
  rw [hrun] at hrows hlen huntouched
  dsimp only [DoubleCollector.vector]
  refine ⟨by omega, ?_, ?_⟩
  · rw [hlen, parseNumbers_init_column]
    simp
  · intro j hij hj100
    rw [huntouched j hij, parseNumbers_init_column]
    rw [List.getElem?_replicate, if_pos hj100]

theorem parseNumbers_first_hundred_witness :
    (parseNumbers ("1,2".toList)).1[5]? = some none :=
  (parseNumbers_first_hundred ("1,2".toList)).2.2 5 (by decide) (by decide)

/-- C5 as stated fails on the code: parsing the input 1,2 processes two rows,
yet the collector's column holds 100 cells, not 2 — its length is the
pre-sized capacity, not the number of rows processed so far. -/
theorem collector_length_not_rows :
    (parseNumbers ("1,2".toList)).2 = 2 ∧
    ((parseNumbers ("1,2".toList)).1).length = 100 ∧
    ¬ ((parseNumbers ("1,2".toList)).1).length =
        (parseNumbers ("1,2".toList)).2 := by
  decide

/-- C5 amended: processing one row writes exactly one cell of the collector's
pre-sized column without changing its length, so after any number of rows the
column's length is the fixed capacity 100 rather than the rows processed. -/
theorem collector_length_always_capacity :
    (∀ (c : DoubleCollector) (i : Nat) (t : Token),
        ((c.setValue i t).column).length = c.column.length) ∧
    ∀ cs : List Char, ((parseNumbers cs).1).length = 100 := by
  refine ⟨fun c i t => by simp [DoubleCollector.setValue], fun cs => ?_⟩
  have hlen := parseNumbersLoop_length ',' '"' 100 0
    ((DoubleCollector.mk []).resize 100) cs
  simp only [parseNumbers]
  rcases hrun : parseNumbersLoop ',' '"' 100 0
    ((DoubleCollector.mk []).resize 100) cs with ⟨out, i⟩
  rw [hrun] at hlen
  dsimp only [DoubleCollector.vector]
  rw [hlen, parseNumbers_init_column]
  simp

/-- Modelled from the spec: the set of language codes with built-in
month/day name tables (date_names_langs; the locale sources are not among
the files, and the vignette exercises en, fr, ko and mas). -/
def date_names_langs : List String :=
  ["en", "fr", "ko", "mas"]

/-- Modelled from the spec: the Locale configuration value, immutable after
construction (spec section 3). -/
structure Locale where
  language_code : String
  date_format : String
  time_format : String
  timezone : String
  encoding : String
  decimal_mark : Char
  grouping_mark : Char
  asciify : Bool
deriving DecidableEq

/-- The fatal errors Locale construction can raise. -/
inductive LocaleError
  | unknownLanguage (code : String)
  | marksEqual (mark : Char)
deriving DecidableEq

/-- Modelled from the spec: locale construction (spec section 6) validates
the language code against the built-in tables and requires distinct decimal
and grouping marks, returning a LocaleError before any parse otherwise. The
spec names invalid format patterns as a further LocaleError but gives no
pattern grammar, so format validation is not modelled. -/
def locale (language_code date_format time_format timezone encoding : String)
    (decimal_mark grouping_mark : Char) (asciify : Bool) :
    Except LocaleError Locale :=
  if language_code ∉ date_names_langs then
    .error (.unknownLanguage language_code)
  else if decimal_mark = grouping_mark then
    .error (.marksEqual decimal_mark)
  else
    .ok ⟨language_code, date_format, time_format, timezone, encoding,
      decimal_mark, grouping_mark, asciify⟩

/-- C6: locale construction fails with a LocaleError whenever the decimal
and grouping marks coincide or the language code is unrecognized, and
succeeds whenever the marks are distinct and the language code is known. -/
theorem locale_construction (lc df tf tz enc : String) (dm gm : Char)
    (a : Bool) :
    (dm = gm → ∃ e, locale lc df tf tz enc dm gm a = .error e) ∧
    (lc ∉ date_names_langs → ∃ e, locale lc df tf tz enc dm gm a = .error e) ∧
    (lc ∈ date_names_langs → dm ≠ gm →
      locale lc df tf tz enc dm gm a =
        .ok ⟨lc, df, tf, tz, enc, dm, gm, a⟩) := by
  refine ⟨?_, ?_, ?_⟩
  · intro heq
    by_cases hlc : lc ∈ date_names_langs
    · exact ⟨.marksEqual dm, by simp [locale, hlc, heq]⟩
    · exact ⟨.unknownLanguage lc, by simp [locale, hlc]⟩
  · intro hlc
    exact ⟨.unknownLanguage lc, by simp [locale, hlc]⟩
  · intro hlc hne
    simp [locale, hlc, hne]

theorem locale_construction_witness :
    locale "fr" "%Y-%m-%d" "" "UTC" "UTF-8" '.' ',' false =
      .ok ⟨"fr", "%Y-%m-%d", "", "UTC", "UTF-8", '.', ',', false⟩ ∧
    (∃ e, locale "fr" "%Y-%m-%d" "" "UTC" "UTF-8" ',' ',' false = .error e) ∧
    (∃ e, locale "xx" "%Y-%m-%d" "" "UTC" "UTF-8" '.' ',' false = .error e) :=
  ⟨(locale_construction "fr" "%Y-%m-%d" "" "UTC" "UTF-8" '.' ',' false).2.2
      (by decide) (by decide),
   (locale_construction "fr" "%Y-%m-%d" "" "UTC" "UTF-8" ',' ',' false).1 rfl,
   (locale_construction "xx" "%Y-%m-%d" "" "UTC" "UTF-8" '.' ',' false).2.1
      (by decide)⟩

/-- Modelled from the spec: the ProblemLog (spec section 4.6), scoped to one
parse invocation, with a configurable maximum entry count and a suppressed
count retained once the maximum is exceeded. -/
structure ProblemLog where
  maxEntries : Nat
  entries : List Problem
  suppressed : Nat
deriving DecidableEq

/-- A fresh log for one parse invocation with the configured maximum. -/
def ProblemLog.empty (m : Nat) : ProblemLog :=
  ⟨m, [], 0⟩

/-- Append one Problem in encounter order; past the maximum the Problem is
dropped and the suppressed count grows instead. -/
def ProblemLog.append (log : ProblemLog) (p : Problem) : ProblemLog :=
  if log.entries.length < log.maxEntries then
    ⟨log.maxEntries, log.entries ++ [p], log.suppressed⟩
  else
    ⟨log.maxEntries, log.entries, log.suppressed + 1⟩

/-- Append a sequence of Problems in encounter order. -/
def ProblemLog.appendAll (log : ProblemLog) (ps : List Problem) : ProblemLog :=
  ps.foldl ProblemLog.append log

/-- Behavior of appendAll from any log state within its capacity. -/
theorem appendAll_spec (ps : List Problem) :
    ∀ log : ProblemLog, log.entries.length ≤ log.maxEntries →
      (log.appendAll ps).entries =
        log.entries ++ ps.take (log.maxEntries - log.entries.length) ∧
      (log.appendAll ps).suppressed =
        log.suppressed + (ps.length - (log.maxEntries - log.entries.length)) ∧
      (log.appendAll ps).maxEntries = log.maxEntries := by
  induction ps with
  | nil => intro log _; simp [ProblemLog.appendAll]
  | cons p ps ih =>
    intro log hcap
    by_cases hlt : log.entries.length < log.maxEntries
    · have hstep : log.append p =
          ⟨log.maxEntries, log.entries ++ [p], log.suppressed⟩ := by
        simp [ProblemLog.append, hlt]
      have hcap2 : (log.append p).entries.length ≤ (log.append p).maxEntries := by
        rw [hstep]; simpa using hlt
      have h := ih (log.append p) hcap2
      rw [hstep] at h
      simp only [ProblemLog.appendAll, List.foldl_cons] at h ⊢
      rcases h with ⟨h1, h2, h3⟩
      rw [hstep]
      refine ⟨?_, ?_, by simpa using h3⟩
      · rw [h1]
        simp only [List.length_append, List.length_cons, List.length_nil]
        have hcount : log.maxEntries - log.entries.length =
            (log.maxEntries - (log.entries.length + 1)) + 1 := by omega
        rw [hcount, List.take_succ_cons]
        simp
      · rw [h2]
        simp only [List.length_append, List.length_cons, List.length_nil,
          List.length_cons]
        omega
    · have hfull : log.entries.length = log.maxEntries := by omega
      have hstep : log.append p =
          ⟨log.maxEntries, log.entries, log.suppressed + 1⟩ := by
        simp [ProblemLog.append, hlt]
      have hcap2 : (log.append p).entries.length ≤ (log.append p).maxEntries := by
        rw [hstep]; simpa using hcap
      have h := ih (log.append p) hcap2
      rw [hstep] at h
      simp only [ProblemLog.appendAll, List.foldl_cons] at h ⊢
      rcases h with ⟨h1, h2, h3⟩
      rw [hstep]
      refine ⟨?_, ?_, by simpa using h3⟩
      · rw [h1]
        simp [hfull]
      · rw [h2]
        simp only [List.length_cons]
        omega

/-- C8: with maximum m and n > m appended Problems, the log retains exactly
the first m in encounter order and reports a positive suppressed count of
n - m, so the caller can recover the total volume n as retained plus
suppressed. -/
theorem problemLog_cap (m : Nat) (ps : List Problem) (h : m < ps.length) :
    ((ProblemLog.empty m).appendAll ps).entries = ps.take m ∧
    ((ProblemLog.empty m).appendAll ps).suppressed = ps.length - m ∧
    ((ProblemLog.empty m).appendAll ps).entries.length +
        ((ProblemLog.empty m).appendAll ps).suppressed = ps.length ∧
    0 < ((ProblemLog.empty m).appendAll ps).suppressed := by
  have hs := appendAll_spec ps (ProblemLog.empty m) (by simp [ProblemLog.empty])
  simp only [ProblemLog.empty] at hs
  rcases hs with ⟨h1, h2, _⟩
  simp only [List.nil_append, List.length_nil, Nat.sub_zero, Nat.zero_add] at h1 h2
  simp only [ProblemLog.empty]
  refine ⟨h1, h2, ?_, by omega⟩
  rw [h1, h2, List.length_take]
  omega

theorem problemLog_cap_witness :
    ((ProblemLog.empty 2).appendAll
        [⟨"p1"⟩, ⟨"p2"⟩, ⟨"p3"⟩, ⟨"p4"⟩, ⟨"p5"⟩]).entries =
      [⟨"p1"⟩, ⟨"p2"⟩] ∧
    ((ProblemLog.empty 2).appendAll
        [⟨"p1"⟩, ⟨"p2"⟩, ⟨"p3"⟩, ⟨"p4"⟩, ⟨"p5"⟩]).suppressed = 3 :=
  ⟨(problemLog_cap 2 [⟨"p1"⟩, ⟨"p2"⟩, ⟨"p3"⟩, ⟨"p4"⟩, ⟨"p5"⟩] (by decide)).1,
   (problemLog_cap 2 [⟨"p1"⟩, ⟨"p2"⟩, ⟨"p3"⟩, ⟨"p4"⟩, ⟨"p5"⟩] (by decide)).2.1⟩

/-- Collector variants, one per target type, in the guesser's fixed
specificity order. -/
inductive ColType
  | logical
  | integer
  | double
  | date
  | time
  | datetime
  | character
deriving DecidableEq

/-- Modelled from the spec: the fixed order in which the TypeGuesser tries
collector variants (spec section 4.5). -/
def guessOrder : List ColType :=
  [.logical, .integer, .double, .date, .time, .datetime, .character]

/-- Modelled from the spec: the declared missing-value markers, the empty
string and NA (spec section 4.2). -/
def missingMarkers : List String :=
  ["", "NA"]

/-- Whether a raw token is a declared missing value. -/
def isMissing (s : String) : Bool :=
  missingMarkers.contains s

/-- Modelled from the spec: the logical collector matches the default
true/false spellings case-insensitively (spec section 4.4). -/
def okLogical (s : String) : Bool :=
  ["TRUE".toList, "FALSE".toList, "T".toList, "F".toList].contains
    (s.toList.map Char.toUpper)

/-- An optional leading sign, dropped before inspecting digits. -/
def dropSign : List Char → List Char
  | [] => []
  | c :: rest => if c = '+' ∨ c = '-' then rest else c :: rest

/-- Modelled from the spec: the integer collector accepts an optional
leading sign followed by digits only, with no decimal or grouping marks. -/
def okInteger (s : String) : Bool :=
  let ds := dropSign s.toList
  !ds.isEmpty && ds.all Char.isDigit

/-- Surrounding-whitespace trimming used by the double collector. -/
def trimSpaces (cs : List Char) : List Char :=
  ((cs.dropWhile (· = ' ')).reverse.dropWhile (· = ' ')).reverse

/-- An optional scientific-notation suffix: empty, or e/E with an optional
sign and digits. -/
def okExpPart : List Char → Bool
  | [] => true
  | c :: rest =>
    if c = 'e' ∨ c = 'E' then
      let ds := dropSign rest
      !ds.isEmpty && ds.all Char.isDigit
    else false

/-- Modelled from the spec: the double collector strips the locale's
grouping mark, requires the locale's decimal mark in place of the decimal
point, and accepts scientific notation and surrounding whitespace (spec
section 4.4). -/
def okDouble (decimal_mark grouping_mark : Char) (s : String) : Bool :=
  let body := dropSign ((trimSpaces s.toList).filter (· ≠ grouping_mark))
  match body.span Char.isDigit with
  | (ip, rest) =>
    match rest with
    | [] => !ip.isEmpty
    | c :: rest2 =>
      if c = decimal_mark then
        match rest2.span Char.isDigit with
        | (fp, rest3) => (!ip.isEmpty || !fp.isEmpty) && okExpPart rest3
      else !ip.isEmpty && okExpPart (c :: rest2)

/-- The numeric value of a digit character. -/
def digitVal (c : Char) : Nat :=
  c.toNat - 48

/-- Modelled from the spec: the date collector matches the default date
format pattern of four year digits, a dash, two month digits, a dash and two
day digits, with in-range components. -/
def okDate (s : String) : Bool :=
  match s.toList with
  | [y1, y2, y3, y4, sep1, m1, m2, sep2, d1, d2] =>
    sep1 == '-' && sep2 == '-' &&
    [y1, y2, y3, y4, m1, m2, d1, d2].all Char.isDigit &&
    (let m := digitVal m1 * 10 + digitVal m2
     let d := digitVal d1 * 10 + digitVal d2
     decide (1 ≤ m) && decide (m ≤ 12) && decide (1 ≤ d) && decide (d ≤ 31))
  | _ => false

/-- Modelled from the spec: the time collector matches two hour digits, a
colon, two minute digits, a colon and two second digits, with in-range
components (the spec fixes no default time pattern; this is the usual
hour-minute-second one). -/
def okTime (s : String) : Bool :=
  match s.toList with
  | [h1, h2, c1, m1, m2, c2, s1, s2] =>
    c1 == ':' && c2 == ':' &&
    [h1, h2, m1, m2, s1, s2].all Char.isDigit &&
    (let h := digitVal h1 * 10 + digitVal h2
     let mi := digitVal m1 * 10 + digitVal m2
     let sec := digitVal s1 * 10 + digitVal s2
     decide (h ≤ 23) && decide (mi ≤ 59) && decide (sec ≤ 59))
  | _ => false

/-- Modelled from the spec: the date-time collector matches a date, a blank
or T separator, and a time. -/
def okDateTime (s : String) : Bool :=
  let cs := s.toList
  match cs.drop 10 with
  | sep :: rest =>
    (sep == ' ' || sep == 'T') && okDate (String.mk (cs.take 10)) &&
      okTime (String.mk rest)
  | [] => false

/-- Modelled from the spec: whether one collector variant converts a raw
token with zero Problems (tryConvert returning no Problem, spec section
4.4); character conversion never fails. -/
def convertsClean (decimal_mark grouping_mark : Char) :
    ColType → String → Bool
  | .logical, s => okLogical s
  | .integer, s => okInteger s
  | .double, s => okDouble decimal_mark grouping_mark s
  | .date, s => okDate s
  | .time, s => okTime s
  | .datetime, s => okDateTime s
  | .character, _ => true

/-- A variant qualifies for a column sample when every sampled non-missing
token converts with zero Problems; missing tokens convert to the missing
sentinel with no Problem under every variant. -/
def variantQualifies (dm gm : Char) (t : ColType) (sample : List String) :
    Bool :=
  sample.all (fun s => isMissing s || convertsClean dm gm t s)

/-- Modelled from the spec: the TypeGuesser tries the variants in the fixed
order and selects the first that qualifies on the sample; character is the
guaranteed fallback (spec section 4.5). -/
def guessType (dm gm : Char) (sample : List String) : ColType :=
  (guessOrder.find? (fun t => variantQualifies dm gm t sample)).getD .character

/-- find? returns the earliest match: any element strictly before the found
one fails the predicate. -/
theorem find?_earlier_false {α : Type} [DecidableEq α] (p : α → Bool) :
    ∀ (l : List α) (a t : α), l.find? p = some a → t ∈ l →
      l.indexOf t < l.indexOf a → p t = false := by
  intro l
  induction l with
  | nil => intro a t hfind ht; cases ht
  | cons b l ih =>
    intro a t hfind ht hlt
    by_cases hpb : p b = true
    · rw [List.find?_cons_of_pos _ hpb] at hfind
      cases hfind
      rw [List.indexOf_cons_self] at hlt
      exact absurd hlt (Nat.not_lt_zero _)
    · have hpb2 : p b = false := by
        cases hb : p b
        · rfl
        · exact absurd hb hpb
      rw [List.find?_cons_of_neg _ hpb] at hfind
      by_cases htb : t = b
      · rw [htb]; exact hpb2
      · have hta : a ≠ b := by
          intro hab
          have hpa := List.find?_some hfind
          rw [hab] at hpa
          exact hpb hpa
        have htl : t ∈ l := by
          cases ht with
          | head => exact absurd rfl htb
          | tail _ h => exact h
        apply ih a t hfind htl
        rw [List.indexOf_cons_ne _ (Ne.symm htb),
          List.indexOf_cons_ne _ (Ne.symm hta)] at hlt
        omega

/-- The character variant qualifies on every sample. -/
theorem character_qualifies (dm gm : Char) (sample : List String) :
    variantQualifies dm gm .character sample = true := by
  simp [variantQualifies, convertsClean]

/-- C7: the guesser tries the collector variants in the fixed order logical,
integer, double, date, time, date-time, character and selects the first for
which every sampled non-missing token converts with zero Problems; every
variant strictly before the selected one fails on the sample; character
conversion never fails, so character is always selected when nothing more
specific qualifies; a sample that is entirely missing is assigned logical;
and on the two documented samples the guess is logical and character, a
re-attempt of x under integer or double still reporting a Problem. -/
theorem typeGuesser_fixed_order (dm gm : Char) (sample : List String) :
    variantQualifies dm gm (guessType dm gm sample) sample = true ∧
    (∀ t ∈ guessOrder,
        guessOrder.indexOf t < guessOrder.indexOf (guessType dm gm sample) →
          variantQualifies dm gm t sample = false) ∧
    (∀ s, convertsClean dm gm .character s = true) ∧
    ((∀ s ∈ sample, isMissing s = true) → guessType dm gm sample = .logical) ∧
    guessType '.' ',' ["TRUE", "FALSE", "NA"] = .logical ∧
    guessType '.' ',' ["1", "2", "x"] = .character ∧
    okInteger "x" = false ∧ okDouble '.' ',' "x" = false := by
  have hchar := character_qualifies dm gm sample
  have hfind : ∃ a, guessOrder.find?
      (fun t => variantQualifies dm gm t sample) = some a := by
    cases hf : guessOrder.find? (fun t => variantQualifies dm gm t sample) with
    | some a => exact ⟨a, rfl⟩
    | none =>
      have := List.find?_eq_none.mp hf ColType.character (by simp [guessOrder])
      simp [hchar] at this
  rcases hfind with ⟨a, hfind⟩
  have hguess : guessType dm gm sample = a := by
    simp [guessType, hfind]
  refine ⟨?_, ?_, fun s => rfl, ?_, by decide, by decide, by decide, by decide⟩
  · rw [hguess]
    have hpa := List.find?_some hfind
    simpa using hpa
  · intro t ht hlt
    rw [hguess] at hlt
    exact find?_earlier_false _ guessOrder a t hfind ht hlt
  · intro hmiss
    have hq : variantQualifies dm gm .logical sample = true := by
      simp only [variantQualifies, List.all_eq_true]
      intro s hs
      simp [hmiss s hs]
    have hfirst : List.find? (fun t => variantQualifies dm gm t sample)
        (ColType.logical :: [ColType.integer, ColType.double, ColType.date,
          ColType.time, ColType.datetime, ColType.character]) =
        some ColType.logical :=
      List.find?_cons_of_pos _ (by simpa using hq)
    simp [guessType, guessOrder, hfirst]

theorem typeGuesser_fixed_order_witness :
    guessType '.' ',' ["TRUE", "FALSE", "NA"] = .logical ∧
    guessType '.' ',' [] = .logical :=
  ⟨(typeGuesser_fixed_order '.' ',' ["TRUE", "FALSE", "NA"]).2.2.2.2.1,
   (typeGuesser_fixed_order '.' ',' []).2.2.2.1 (by decide)⟩

/-- Strip one carriage return from the front of a reversed line, so that a
CRLF terminator leaves no CR in the line's text. -/
def dropLeadingCR : List Char → List Char
  | '\x0d' :: rest => rest
  | cs => cs

/-- Split a character source into its text lines: an LF terminates a line
(with a trailing CR stripped, so CRLF and lone LF both terminate), the
terminator is not part of the line, a final line without a trailing
terminator is still a line, and an empty source has no lines. The
accumulator holds the current line in reverse. -/
def splitLinesAux (acc : List Char) : List Char → List (List Char)
  | [] => if acc.isEmpty then [] else [(dropLeadingCR acc).reverse]
  | c :: rest =>
    if c = '\n' then (dropLeadingCR acc).reverse :: splitLinesAux [] rest
    else splitLinesAux (c :: acc) rest

/-- The ordered sequence of a source's text lines. -/
def splitLines (cs : List Char) : List (List Char) :=
  splitLinesAux [] cs

/-- Skip one text line of the source, consuming its terminator. -/
def dropOneLine : List Char → List Char
  | [] => []
  | c :: rest => if c = '\n' then rest else dropOneLine rest

/-- Modelled from the spec: datasource (src/R/read_lines.R calls it; its
definition is not among the sources) positions the source after the first
skip lines. -/
def datasource (file : List Char) (skip : Nat) : List Char :=
  match skip with
  | 0 => file
  | k + 1 => datasource (dropOneLine file) k

/-- Modelled from the spec: the native helper called by read_lines
(src/R/read_lines.R; its definition is not among the sources) reads the
positioned source's lines — all of them when n_max is -1, at most n_max
otherwise — without tokenization or typing. -/
def read_lines_aux (ds : List Char) (n_max : Int) : List (List Char) :=
  if n_max < 0 then splitLines ds else (splitLines ds).take n_max.toNat

/-- read_lines (src/R/read_lines.R): build the datasource with the skip and
hand it to the native helper. -/
def read_lines (file : List Char) (skip : Nat) (n_max : Int) :
    List (List Char) :=
  read_lines_aux (datasource file skip) n_max

/-- Skipping one line at the source level drops the first text line. -/
theorem splitLines_dropOneLine (cs : List Char) :
    splitLines (dropOneLine cs) = (splitLines cs).tail := by
  suffices h : ∀ acc, splitLines (dropOneLine cs) = (splitLinesAux acc cs).tail from
    h []
  induction cs with
  | nil =>
    intro acc
    cases h : acc.isEmpty <;>
      simp [splitLines, splitLinesAux, dropOneLine, h]
  | cons c rest ih =>
    intro acc
    by_cases hn : c = '\n'
    · subst hn
      simp [splitLinesAux, dropOneLine, splitLines]
    · simp only [splitLinesAux, dropOneLine, if_neg hn]
      exact ih _

/-- Skipping k lines at the source level drops the first k text lines. -/
theorem splitLines_datasource (skip : Nat) :
    ∀ file, splitLines (datasource file skip) = (splitLines file).drop skip := by
  induction skip with
  | zero => intro file; simp [datasource]
  | succ k ih =>
    intro file
    show splitLines (datasource (dropOneLine file) k) = _
    rw [ih (dropOneLine file), splitLines_dropOneLine]
    rw [← List.drop_one, List.drop_drop]
    congr 1
    omega

/-- C9: read_lines returns the source's text lines in order, one element per
line, after skipping the first skip lines; with n_max = -1 every remaining
line is returned and with a non-negative n_max at most n_max lines are,
without tokenization or typing ever being applied; the documented examples
behave as documented. -/
theorem read_lines_spec (file : List Char) (skip : Nat) :
    read_lines file skip (-1) = (splitLines file).drop skip ∧
    (∀ n : Nat, read_lines file skip (n : Int) =
      ((splitLines file).drop skip).take n) ∧
    read_lines ("1\n\n2".toList) 0 (-1) = ["1".toList, [], "2".toList] ∧
    read_lines ("\n".toList) 0 (-1) = [[]] := by
  refine ⟨?_, ?_, by decide, by decide⟩
  · show read_lines_aux (datasource file skip) (-1) = _
    rw [read_lines_aux, if_pos (by omega), splitLines_datasource skip file]
  · intro n
    show read_lines_aux (datasource file skip) (n : Int) = _
    rw [read_lines_aux, if_neg (by omega), splitLines_datasource skip file]
    simp

end Readr
